import Mathlib

/-!
Shallow embedding of the semantic-search ingestion pipeline:
`src/data_processing/text_processor.py` (TextProcessor: product-text
assembly and chunking) and `src/data_processing/embedding_generator.py`
(EmbeddingGenerator: batched embedding, collection reset, batched writes
to the vector store).  Python strings are Lean `String`s, Python lists are
Lean `List`s, Python ints are `Nat`.  The external capabilities (the NLTK
sentence tokenizer, the sentence-transformers model, the ChromaDB client)
are modelled at their interfaces: the sentence splitter actually embedded
is the repository's own regex fallback `_simple_sentence_split`, the
embedding model is an abstract per-text encoding function, and the store
is an association list of named collections.
-/

/-! ## Python string primitives -/

/-- The whitespace class of Python `str.strip` / `str.split` / `re \s`:
space, tab, newline, carriage return, vertical tab, form feed. -/
def isPySpace (c : Char) : Bool :=
  c = ' ' || c = '\t' || c = '\n' || c = '\r' || c = Char.ofNat 11 || c = Char.ofNat 12

/-- Drop the leading whitespace run (Python `str.lstrip`). -/
def lstripL (l : List Char) : List Char := l.dropWhile isPySpace

/-- Drop the trailing whitespace run (Python `str.rstrip`). -/
def rstripL : List Char → List Char
  | [] => []
  | c :: cs =>
    let r := rstripL cs
    if r = [] then (if isPySpace c then [] else [c]) else c :: r

/-- Python `str.strip()`: remove leading and trailing whitespace. -/
def pstrip (s : String) : String := ⟨rstripL (lstripL s.data)⟩

/-- Split a character list at every character satisfying `p`; the pieces
between consecutive separators are kept (possibly empty), as in
`re.split` over a single-character class.  Used with a nonempty filter
afterwards, this also matches splitting on a character *class plus*
(`[.!?]+`, `\s+`), since collapsing adjacent separators only removes
empty pieces. -/
def splitP (p : Char → Bool) : List Char → List (List Char)
  | [] => [[]]
  | c :: cs =>
    let r := splitP p cs
    if p c then [] :: r
    else
      match r with
      | [] => [[c]]
      | q :: rest => (c :: q) :: rest

/-- Python `str.split()` with no argument, on a character list: maximal
nonempty runs of non-whitespace characters. -/
def pwordsL (l : List Char) : List (List Char) :=
  (splitP isPySpace l).filter (fun w => w ≠ [])

/-- Python `text.split()`: the whitespace-separated words of `s`. -/
def pywords (s : String) : List String := (pwordsL s.data).map String.mk

/-- The word count `len(text.split())` used throughout `TextProcessor`. -/
def wordCount (s : String) : Nat := (pwordsL s.data).length

/-- Python `sep.join(parts)`. -/
def joinSep (sep : String) : List String → String
  | [] => ""
  | [s] => s
  | s :: rest => s ++ sep ++ joinSep sep rest

/-- Python slice `l[-k:]` (for `k = 0` the slice `l[-0:] = l[0:]` is the
whole list). -/
def pySliceLast (k : Nat) (l : List α) : List α :=
  if k = 0 then l else l.drop (l.length - k)

/-- Python `text.replace(c, r)` for a single-character pattern `c`. -/
def replaceCharL (c : Char) (r : List Char) (l : List Char) : List Char :=
  l.flatMap (fun x => if x = c then r else [x])

/-- Worker for `re.sub(r'\s+', ' ', text)`: the flag records whether the
previous character was whitespace (i.e. we are inside a run that has
already produced its single space). -/
def collapseWSAux : Bool → List Char → List Char
  | _, [] => []
  | prevWS, c :: cs =>
    if isPySpace c then
      (if prevWS then collapseWSAux true cs else ' ' :: collapseWSAux true cs)
    else c :: collapseWSAux false cs

/-- Embeds `re.sub(r'\s+', ' ', text)`: every maximal whitespace run becomes
one space. -/
def collapseWSL (l : List Char) : List Char := collapseWSAux false l

/-- Worker for `re.sub(r'\.{2,}', '.', text)`: runs of periods collapse to
a single period (a run of length one is reproduced unchanged, so
collapsing every run agrees with collapsing only the length-two-or-more
runs). -/
def collapseDotsAux : Bool → List Char → List Char
  | _, [] => []
  | prevDot, c :: cs =>
    if c = '.' then
      (if prevDot then collapseDotsAux true cs else '.' :: collapseDotsAux true cs)
    else c :: collapseDotsAux false cs

/-- Embeds `re.sub(r'\.{2,}', '.', text)`. -/
def collapseDotsL (l : List Char) : List Char := collapseDotsAux false l

/-- Python truthiness of a string together with `str.lower` (ASCII), used
for the brand sentinel check. -/
def pyLower (s : String) : String := ⟨s.data.map Char.toLower⟩

/-! ## TextProcessor (`src/data_processing/text_processor.py`) -/

/-- The `TextProcessor.__init__` configuration: `target_chunk_size`
(default 125), `overlap_size` (default 25) and the hardcoded
`min_chunk_size = 50`. -/
structure TextProcessor where
  target_chunk_size : Nat
  overlap_size : Nat
  min_chunk_size : Nat
deriving DecidableEq

/-- The `TextProcessor()` instance with the default constructor arguments. -/
def defaultTP : TextProcessor := ⟨125, 25, 50⟩

/-- Embeds `TextProcessor._clean_text`: collapse whitespace runs to single
spaces, turn `|` and newline into sentence-like separators, turn tab into
space, collapse repeated periods, and strip.  (After the whitespace
collapse there is no newline or tab left, exactly as in the source, where
those two replaces are no-ops; they are kept for fidelity.) -/
def cleanText (text : String) : String :=
  if text = "" then ""
  else
    let t1 := collapseWSL text.data
    let t2 := replaceCharL '|' ['.', ' '] t1
    let t3 := replaceCharL '\n' ['.', ' '] t2
    let t4 := replaceCharL '\t' [' '] t3
    ⟨rstripL (lstripL (collapseDotsL t4))⟩

/-- Whether a character ends a sentence for the regex fallback splitter
(`[.!?]+`). -/
def isSentSep (c : Char) : Bool := c = '.' || c = '!' || c = '?'

/-- Embeds `TextProcessor._simple_sentence_split`: split on runs of `.`, `!`,
`?`, strip each piece, and keep the nonempty ones. -/
def simpleSentenceSplit (text : String) : List String :=
  (((splitP isSentSep text.data).map (fun q => rstripL (lstripL q))).filter
    (fun q => q ≠ [])).map String.mk

/-- One chunk record as built by `chunk_text` (the dict literal repeated
at lines 60, 93, 113 and 123 of the source, with the `chunk_id` f-string
`pid ++ "_chunk_" ++ index`). -/
structure Chunk where
  text : String
  chunk_id : String
  chunk_index : Nat
  word_count : Nat
  product_id : String
deriving DecidableEq

/-- The chunk dict literal of `chunk_text`. -/
def mkChunk (pid text : String) (idx wc : Nat) : Chunk :=
  ⟨text, pid ++ "_chunk_" ++ toString idx, idx, wc, pid⟩

/-- Embeds `TextProcessor._get_overlap`: the last `overlap_size` words of `text`
joined by spaces, or the empty string when `text` has at most
`overlap_size` words (or is empty). -/
def getOverlap (tp : TextProcessor) (text : String) : String :=
  if text = "" then ""
  else
    let words := pywords text
    if tp.overlap_size < words.length then joinSep " " (pySliceLast tp.overlap_size words)
    else ""

/-- The mutable loop state of `chunk_text`: the chunks emitted so far, the
running buffer, its tracked word count and the next chunk index. -/
structure ChunkState where
  chunks : List Chunk
  current_chunk : String
  current_word_count : Nat
  chunk_index : Nat
deriving DecidableEq

/-- The body of the `for sentence in sentences` loop of `chunk_text`
(lines 83-109): strip the sentence, skip it if empty; close the current
chunk and reseed the buffer with the overlap tail when adding the
sentence would exceed `target_chunk_size` and the buffer is nonempty;
otherwise append the sentence to the buffer. -/
def stepSentence (tp : TextProcessor) (pid : String) (st : ChunkState)
    (sentence0 : String) : ChunkState :=
  let sentence := pstrip sentence0
  if sentence = "" then st
  else
    let sentence_words := wordCount sentence
    if tp.target_chunk_size < st.current_word_count + sentence_words ∧
        st.current_chunk ≠ "" then
      let closed := mkChunk pid (pstrip st.current_chunk) st.chunk_index st.current_word_count
      let overlap_text := getOverlap tp st.current_chunk
      let new_chunk := if overlap_text ≠ "" then overlap_text ++ " " ++ sentence else sentence
      ⟨st.chunks ++ [closed], new_chunk, wordCount new_chunk, st.chunk_index + 1⟩
    else
      ⟨st.chunks,
       if st.current_chunk ≠ "" then st.current_chunk ++ " " ++ sentence else sentence,
       st.current_word_count + sentence_words,
       st.chunk_index⟩

/-- The whole sentence loop of `chunk_text`, starting from the empty
state (`chunks = []`, `current_chunk = ""`, counts 0). -/
def chunkLoop (tp : TextProcessor) (pid : String) (sentences : List String) : ChunkState :=
  sentences.foldl (stepSentence tp pid) ⟨[], "", 0, 0⟩

/-- Lines 111-129 of `chunk_text`: emit the final buffer when it is
nonempty and has at least 30 words, then fall back to one chunk holding
the whole cleaned text when no chunk was produced at all. -/
def finalizeChunks (tp : TextProcessor) (pid cleaned : String) (st : ChunkState) : List Chunk :=
  let chunks :=
    if st.current_chunk ≠ "" ∧ 30 ≤ st.current_word_count then
      st.chunks ++ [mkChunk pid (pstrip st.current_chunk) st.chunk_index st.current_word_count]
    else st.chunks
  if chunks = [] then [mkChunk pid cleaned 0 (wordCount cleaned)] else chunks

/-- Embeds `TextProcessor.chunk_text`, parametrised by the sentence splitter.
The source tries `nltk.sent_tokenize` (an external capability) and falls
back to `_simple_sentence_split` on any failure; abstracting the splitter
lets the theorems cover both paths.  The short-input branch compares the
*character* length of the stripped text against `min_chunk_size`
(`len(text.strip()) < self.min_chunk_size`). -/
def chunkTextWith (split : String → List String) (tp : TextProcessor)
    (text pid : String) : List Chunk :=
  if text = "" ∨ (pstrip text).length < tp.min_chunk_size then
    [mkChunk pid text 0 (wordCount text)]
  else
    let cleaned := cleanText text
    finalizeChunks tp pid cleaned (chunkLoop tp pid (split cleaned))

/-- Specialises `chunk_text` to the NLTK-unavailable path blessed by the source and
spec: the repository's own regex fallback is the sentence splitter. -/
def chunkText (tp : TextProcessor) (text pid : String) : List Chunk :=
  chunkTextWith simpleSentenceSplit tp text pid

/-! ## TextAssembler (`concatenate_product_text`) -/

/-- A nonnegative decimal numeral, the shape of the catalog price values
(§3 of the spec: price is a positive decimal): an integer part and the
digits after the point.  `render` is Python `str` of such a value
(`str(19.99) = "19.99"`). -/
structure Decimal where
  intPart : Nat
  fracDigits : List Nat
deriving DecidableEq

/-- Python `str` of the decimal price. -/
def Decimal.render (d : Decimal) : String :=
  toString d.intPart ++ "." ++ ⟨d.fracDigits.map Nat.digitChar⟩

/-- Python `price > 0` for a nonnegative decimal. -/
def Decimal.isPos (d : Decimal) : Bool :=
  0 < d.intPart || d.fracDigits.any (fun x => 0 < x)

/-- The fields of `product_row` read by `concatenate_product_text`
(missing keys are modelled by their `get` defaults: empty strings,
`"unknown"` for brand, price 0). -/
structure ProductRow where
  title : String
  brand : String
  category : String
  description : String
  price : Decimal
deriving DecidableEq

/-- Category cleaning at line 40: `replace('&', ' and ')` then
`replace('|', ' > ')`. -/
def cleanCategory (s : String) : String :=
  ⟨replaceCharL '|' [' ', '>', ' '] (replaceCharL '&' (" and ".data) s.data)⟩

/-- Embeds `TextProcessor.concatenate_product_text`: strip the four text fields,
then join the conditional clauses with `". "`.  The price clause is the
source's line 45 verbatim: the file on disk is encoding-mangled and its
currency prefix is the three characters `â‚¹` (the UTF-8 bytes of `₹`
decoded as Latin-1), not the rupee sign itself. -/
def concatenateProductText (row : ProductRow) : String :=
  let title := pstrip row.title
  let brand := pstrip row.brand
  let category := pstrip row.category
  let description := pstrip row.description
  let parts : List String :=
    (if title ≠ "" then ["Product: " ++ title] else []) ++
    (if brand ≠ "" ∧ pyLower brand ≠ "unknown" then ["Brand: " ++ brand] else []) ++
    (if category ≠ "" then ["Category: " ++ cleanCategory category] else []) ++
    (if row.price.isPos then ["Price: â‚¹" ++ row.price.render] else []) ++
    (if description ≠ "" then ["Description: " ++ description] else [])
  joinSep ". " parts

/-! ## EmbeddingBatcher (`generate_embeddings`) -/

/-- One call to the external embedding provider on a batch
(`self.model.encode(batch, normalize_embeddings=True, ...)`).  The
provider is an external capability (§6 of the spec) that encodes each
text of the batch independently; it is modelled by an abstract per-text
encoding function `f` applied elementwise. -/
def encodeBatch (f : String → α) (batch : List String) : List α := batch.map f

/-- Worker for the Python loop `for i in range(0, len(texts), batch_size)`
slicing `texts[i:i + batch_size]`; the fuel starts at `texts.length`,
an upper bound on the number of iterations. -/
def batchSlicesGo (bs : Nat) : Nat → List β → List (List β)
  | _, [] => []
  | 0, _ => []
  | fuel + 1, l => l.take bs :: batchSlicesGo bs fuel (l.drop bs)

/-- The consecutive slices `texts[i:i + bs]` for `i = 0, bs, 2*bs, ...`.
For `bs = 0` the Python `range(0, n, 0)` raises `ValueError`, so that
branch is unreachable in the source; it is modelled as no slices. -/
def batchSlices (bs : Nat) (l : List β) : List (List β) :=
  if bs = 0 then [] else batchSlicesGo bs l.length l

/-- Embeds `EmbeddingGenerator.generate_embeddings`: encode the input texts in
consecutive batches of at most `batch_size` and concatenate the batch
outputs in order (`embeddings.extend(batch_embeddings)`). -/
def generateEmbeddings (f : String → α) (texts : List String) (batch_size : Nat) : List α :=
  ((batchSlices batch_size texts).map (fun b => encodeBatch f b)).flatten

/-! ## VectorStoreWriter (`create_collection`, `store_embeddings`) -/

/-- The stringified metadata map built per chunk row at lines 95-104 of
`embedding_generator.py` (ChromaDB requires scalar string values). -/
structure Metadata where
  product_id : String
  chunk_index : String
  word_count : String
  brand : String
  category : String
  price : String
  availability : String
  title : String
deriving DecidableEq

/-- Python `str(True) / str(False)`. -/
def pyBoolStr (b : Bool) : String := if b then "True" else "False"

/-- Python slice `s[:n]`. -/
def pyTake (n : Nat) (s : String) : String := ⟨s.data.take n⟩

/-- One row of `chunks_df` as consumed by `store_embeddings`: the chunk
fields produced by `chunk_text` plus the denormalized product columns
added by `process_dataframe`. -/
structure ChunkRow where
  chunk_id : String
  text : String
  chunk_index : Nat
  word_count : Nat
  product_id : String
  original_title : String
  brand : String
  category : String
  price : Decimal
  availability : Bool
deriving DecidableEq

/-- The metadata dict of lines 95-104: every value stringified, the title
truncated to 100 characters. -/
def mkMetadata (r : ChunkRow) : Metadata :=
  ⟨r.product_id, toString r.chunk_index, toString r.word_count, r.brand,
   r.category, r.price.render, pyBoolStr r.availability, pyTake 100 r.original_title⟩

/-- One `collection.add(...)` call: the four index-aligned argument
arrays. -/
structure BatchAdd (α : Type) where
  ids : List String
  embeddings : List α
  documents : List String
  metadatas : List Metadata
deriving DecidableEq

/-- Worker for the write loop `for i in range(0, len(ids), 100)` of
`store_embeddings`: every array is sliced with the same bounds
`[i:min(i + 100, len(ids))]`; the fuel starts at `ids.length`, an upper
bound on the number of iterations. -/
def storeBatchesGo : Nat → List String → List α → List String → List Metadata →
    List (BatchAdd α)
  | _, [], _, _, _ => []
  | 0, _, _, _, _ => []
  | fuel + 1, ids, embs, docs, metas =>
    ⟨ids.take 100, embs.take 100, docs.take 100, metas.take 100⟩ ::
      storeBatchesGo fuel (ids.drop 100) (embs.drop 100) (docs.drop 100) (metas.drop 100)

/-- The sequence of `collection.add` calls issued by `store_embeddings`
for the given chunk table and embedding array: ids are the `chunk_id`
column, documents the `text` column, metadatas the stringified maps, all
written in fixed-size batches of (at most) 100. -/
def storeBatches (chunks : List ChunkRow) (embs : List α) : List (BatchAdd α) :=
  let ids := chunks.map (fun r => r.chunk_id)
  let docs := chunks.map (fun r => r.text)
  let metas := chunks.map mkMetadata
  storeBatchesGo ids.length ids embs docs metas

/-- One stored tuple of a ChromaDB collection. -/
structure Entry (α : Type) where
  id : String
  embedding : α
  document : String
  metadata : Metadata
deriving DecidableEq

/-- The index-aligned zip of the four arrays of an `add` call into stored
entries (truncating at the shortest, as the aligned arrays always have
equal length). -/
def entriesOf : List String → List α → List String → List Metadata → List (Entry α)
  | i :: is, v :: vs, d :: ds, m :: ms => ⟨i, v, d, m⟩ :: entriesOf is vs ds ms
  | _, _, _, _ => []

/-- The ChromaDB client state: the named collections and their contents,
in creation order. -/
abbrev Store (α : Type) : Type := List (String × List (Entry α))

/-- Errors surfaced by the ChromaDB client calls. -/
inductive StoreErr where
  | collectionNotFound
  | deleteFailed
  | collectionExists
deriving DecidableEq

/-- Look a collection up by name. -/
def storeLookup (name : String) : Store α → Option (List (Entry α))
  | [] => none
  | (n, es) :: rest => if n = name then some es else storeLookup name rest

/-- Remove the named collection. -/
def storeDelete (name : String) : Store α → Store α
  | [] => []
  | (n, es) :: rest =>
    if n = name then storeDelete name rest else (n, es) :: storeDelete name rest

/-- Embeds `client.get_collection(name)`: raises when no such collection
exists. -/
def clientGetCollection (s : Store α) (name : String) : Except StoreErr (List (Entry α)) :=
  match storeLookup name s with
  | some es => Except.ok es
  | none => Except.error StoreErr.collectionNotFound

/-- Embeds `client.delete_collection(name)`: raises when the collection is
missing; the `fault` flag injects an environment failure (I/O error
inside the store) to model an exception thrown by a delete that was
expected to succeed. -/
def clientDeleteCollection (fault : Bool) (s : Store α) (name : String) :
    Except StoreErr (Store α) :=
  if fault then Except.error StoreErr.deleteFailed
  else
    match storeLookup name s with
    | some _ => Except.ok (storeDelete name s)
    | none => Except.error StoreErr.collectionNotFound

/-- Embeds `client.create_collection(name, metadata=...)`: raises when a
collection of that name already exists, otherwise adds a fresh empty
collection (the HNSW construction parameters are index tuning knobs with
no semantic content and are not modelled). -/
def clientCreateCollection (s : Store α) (name : String) :
    Except StoreErr (Store α) :=
  match storeLookup name s with
  | some _ => Except.error StoreErr.collectionExists
  | none => Except.ok (s ++ [(name, [])])

/-- The body of the `try` block at lines 57-60 of
`EmbeddingGenerator.create_collection`: look the collection up, then
delete it. -/
def resetPhase (fault : Bool) (s : Store α) (name : String) : Except StoreErr (Store α) :=
  match clientGetCollection s name with
  | Except.error e => Except.error e
  | Except.ok _ => clientDeleteCollection fault s name

/-- Embeds `EmbeddingGenerator.create_collection`: the reset phase wrapped in a
bare `try/except: pass` (any error leaves the store untouched), followed
by `client.create_collection`. -/
def createCollectionWith (fault : Bool) (s : Store α) (name : String) :
    Except StoreErr (Store α) :=
  let s1 :=
    match resetPhase fault s name with
    | Except.ok s2 => s2
    | Except.error _ => s
  clientCreateCollection s1 name

/-- Embeds `collection.add(...)`: append the batch's zipped entries to the named
collection (adding to a missing collection cannot happen after
`create_collection`). -/
def storeAdd (name : String) (newEntries : List (Entry α)) : Store α → Store α
  | [] => []
  | (n, es) :: rest =>
    if n = name then (n, es ++ newEntries) :: rest
    else (n, es) :: storeAdd name newEntries rest

/-- The entries written by one `collection.add` call. -/
def batchEntries (b : BatchAdd α) : List (Entry α) :=
  entriesOf b.ids b.embeddings b.documents b.metadatas

/-- Issue the write batches in order. -/
def applyBatches (name : String) (bs : List (BatchAdd α)) (s : Store α) : Store α :=
  bs.foldl (fun st b => storeAdd name (batchEntries b) st) s

/-- Embeds `EmbeddingGenerator.store_embeddings`: reset-and-create the named
collection (the nominal run: the environment injects no delete fault),
then write all chunk/embedding batches to it. -/
def storeEmbeddings (s : Store α) (chunks : List ChunkRow) (embs : List α)
    (name : String) : Except StoreErr (Store α) :=
  match createCollectionWith false s name with
  | Except.error e => Except.error e
  | Except.ok s1 => Except.ok (applyBatches name (storeBatches chunks embs) s1)

/-! ## Concrete inputs used by witnesses and counterexamples -/

/-- A text of 125 one-letter words followed by the short sentence `Bye.`: long
enough to enter the splitting path, and the trailing sentence lands in a
final buffer of 26 words (25 overlap words plus `Bye`). -/
def c1Text : String := joinSep " " (List.replicate 125 "a") ++ ". Bye."

/-- Two long words separated by a double space: 2 words but 54 characters,
so it enters the splitting path, where whitespace collapsing changes the
text. -/
def c2Text : String :=
  String.mk (List.replicate 26 'a') ++ "  " ++ String.mk (List.replicate 26 'b')

/-- A 10-word first sentence: at most `overlap_size` words, so the overlap
helper returns the empty string when the chunk it ends is closed. -/
def c3s1 : String := joinSep " " (List.replicate 10 "aa")

/-- A 120-word second sentence, which triggers the split. -/
def c3s2 : String := joinSep " " (List.replicate 120 "bb")

/-- First sentence of 10 words, then a 120-word sentence: closing the
first chunk finds only 10 ≤ 25 words, so the next buffer is seeded
without any overlap tail. -/
def c3Text : String := c3s1 ++ ". " ++ c3s2 ++ "."

/-- A single 50-character word: enters the splitting path and ends in the
single-chunk fallback. -/
def covText : String := String.mk (List.replicate 50 'x')

/-- The spec §8 example record: `title:"Wireless Mouse", brand:"acme",
category:"electronics|computers", price:19.99, description:"A"*40`. -/
def wirelessRow : ProductRow :=
  ⟨"Wireless Mouse", "acme", "electronics|computers",
   String.mk (List.replicate 40 'A'), ⟨19, [9, 9]⟩⟩

/-- A metadata value for pre-existing store entries in witnesses. -/
def sampleMetadata : Metadata := ⟨"p9", "0", "10", "b", "cat", "1.0", "True", "t"⟩

/-- A pre-existing entry left over from an earlier ingestion run. -/
def oldEntry : Entry Nat := ⟨"stale_chunk_0", 7, "stale doc", sampleMetadata⟩

/-- A store whose `products` collection already holds a stale entry. -/
def oldStore : Store Nat := [("products", [oldEntry])]

/-- Sample chunk rows for the store witnesses. -/
def row1 : ChunkRow := ⟨"p1_chunk_0", "doc one", 0, 40, "p1", "Title One", "b1", "c1", ⟨5, [5]⟩, true⟩

/-- Second sample chunk row. -/
def row2 : ChunkRow := ⟨"p1_chunk_1", "doc two", 1, 35, "p1", "Title One", "b1", "c1", ⟨5, [5]⟩, false⟩

/-- A character list with no leading or trailing whitespace: both strips
leave it unchanged. -/
def OC (l : List Char) : Prop := lstripL l = l ∧ rstripL l = l

/-- A character list containing no whitespace at all. -/
def NoWS (l : List Char) : Prop := ∀ c ∈ l, isPySpace c = false

/-- The buffer-coverage disjunction maintained along the sentence loop:
the character list `d` occurs inside an already-closed chunk or inside
the running buffer. -/
def CoveredBy (st : ChunkState) (d : List Char) : Prop :=
  (∃ c ∈ st.chunks, d <:+: c.text.data) ∨ d <:+: st.current_chunk.data

/-- The bookkeeping invariant of the `chunk_text` loop: the emitted chunk
indices so far are exactly `0, ..., chunk_index - 1` in order, and every
emitted chunk carries the f-string id and the product id. -/
def IndexInv (pid : String) (st : ChunkState) : Prop :=
  st.chunks.map Chunk.chunk_index = List.range st.chunk_index ∧
  st.chunks.length = st.chunk_index ∧
  ∀ c ∈ st.chunks, c.chunk_id = pid ++ "_chunk_" ++ toString c.chunk_index ∧
    c.product_id = pid

/-! ## Helper lemmas: strings, strip, words -/

theorem strData_eq (s : String) : String.mk s.data = s := by cases s; rfl

theorem strEmpty_iff (s : String) : s = "" ↔ s.data = [] := by
  constructor
  · intro h; rw [h]
  · intro h; rw [← strData_eq s, h]

theorem dataAppend (a b : String) : (a ++ b).data = a.data ++ b.data :=
  String.data_append a b

theorem subOfPref {l₁ l₂ : List Char} (h : l₁ <+: l₂) : l₁ <:+: l₂ := by
  obtain ⟨t, ht⟩ := h
  exact ⟨[], t, by simpa using ht⟩

theorem subOfSuff {l₁ l₂ : List Char} (h : l₁ <:+ l₂) : l₁ <:+: l₂ := by
  obtain ⟨t, ht⟩ := h
  exact ⟨t, [], by simpa using ht⟩

theorem subTrans {l₁ l₂ l₃ : List Char} (h : l₁ <:+: l₂) (h₂ : l₂ <:+: l₃) :
    l₁ <:+: l₃ := by
  obtain ⟨a, b, hh⟩ := h
  obtain ⟨c, d, hh₂⟩ := h₂
  exact ⟨c ++ a, b ++ d, by rw [← hh₂, ← hh]; simp⟩

theorem subAppendLeft {l₁ l₂ l₃ : List Char} (h : l₁ <:+: l₂) : l₁ <:+: l₂ ++ l₃ :=
  subTrans h (subOfPref ⟨l₃, rfl⟩)

theorem subCons {l₁ l₂ : List Char} (c : Char) (h : l₁ <:+: l₂) : l₁ <:+: c :: l₂ := by
  obtain ⟨a, b, hh⟩ := h
  exact ⟨c :: a, b, by rw [← hh]; rfl⟩

theorem subSuffAppend (l₁ l₂ : List Char) : l₂ <:+: l₁ ++ l₂ :=
  subOfSuff ⟨l₁, rfl⟩

theorem lstripL_cons_neg {c : Char} (cs : List Char) (h : isPySpace c = false) :
    lstripL (c :: cs) = c :: cs := by
  simp [lstripL, List.dropWhile_cons, h]

theorem lstripL_self_head {c : Char} {cs : List Char}
    (h : lstripL (c :: cs) = c :: cs) : isPySpace c = false := by
  by_contra hc
  rw [Bool.not_eq_false] at hc
  have h1 : lstripL (c :: cs) = lstripL cs := by
    simp [lstripL, List.dropWhile_cons, hc]
  have h2 : (lstripL cs).length ≤ cs.length := (List.dropWhile_suffix isPySpace).length_le
  rw [h] at h1
  have := congrArg List.length h1
  simp at this
  omega

theorem lstripL_append {l₁ : List Char} (l₂ : List Char)
    (h : lstripL l₁ = l₁) (hne : l₁ ≠ []) : lstripL (l₁ ++ l₂) = l₁ ++ l₂ := by
  cases l₁ with
  | nil => exact absurd rfl hne
  | cons c cs => exact lstripL_cons_neg _ (lstripL_self_head h)

theorem rstripL_append (l₁ : List Char) {l₂ : List Char}
    (h : rstripL l₂ = l₂) (hne : l₂ ≠ []) : rstripL (l₁ ++ l₂) = l₁ ++ l₂ := by
  induction l₁ with
  | nil => simpa using h
  | cons c t ih =>
    have hne2 : t ++ l₂ ≠ [] := by
      intro hcon
      exact hne (List.append_eq_nil.mp hcon).2
    show rstripL (c :: (t ++ l₂)) = _
    rw [rstripL]
    simp only [ih, if_neg hne2]
    rw [List.cons_append]

theorem lstripL_idem (l : List Char) : lstripL (lstripL l) = lstripL l := by
  induction l with
  | nil => rfl
  | cons c cs ih =>
    by_cases h : isPySpace c
    · simpa [lstripL, List.dropWhile_cons, h] using ih
    · have h' : isPySpace c = false := by simpa using h
      rw [lstripL_cons_neg _ h', lstripL_cons_neg _ h']

theorem rstripL_idem (l : List Char) : rstripL (rstripL l) = rstripL l := by
  induction l with
  | nil => rfl
  | cons c cs ih =>
    rw [rstripL]
    by_cases h : rstripL cs = []
    · simp only [h, if_pos rfl]
      by_cases hc : isPySpace c
      · rw [if_pos hc]; rfl
      · have hc' : isPySpace c = false := by simpa using hc
        simp [hc', rstripL]
    · simp only [if_neg h]
      rw [rstripL]
      have ih' : rstripL (rstripL cs) = rstripL cs := ih
      simp only [ih', if_neg h]

theorem lstripL_rstripL {l : List Char} (h : lstripL l = l) :
    lstripL (rstripL l) = rstripL l := by
  cases l with
  | nil => rfl
  | cons c cs =>
    have hc : isPySpace c = false := lstripL_self_head h
    rw [rstripL]
    by_cases hr : rstripL cs = []
    · simp only [hr, if_pos rfl, hc]
      simp [lstripL, List.dropWhile_cons, hc]
    · simp only [if_neg hr]
      exact lstripL_cons_neg _ hc

theorem rstripL_pref (l : List Char) : rstripL l <+: l := by
  induction l with
  | nil => exact ⟨[], rfl⟩
  | cons c cs ih =>
    rw [rstripL]
    by_cases hr : rstripL cs = []
    · simp only [hr, if_pos rfl]
      by_cases hc : isPySpace c
      · simp only [if_pos hc]
        exact ⟨c :: cs, rfl⟩
      · simp only [if_neg hc]
        exact ⟨cs, rfl⟩
    · simp only [if_neg hr]
      obtain ⟨t, ht⟩ := ih
      exact ⟨t, by simp [ht]⟩

theorem OC_nil : OC [] := ⟨rfl, rfl⟩

theorem OC_append {a b : List Char} (ha : OC a) (hane : a ≠ []) (hb : OC b)
    (hbne : b ≠ []) : OC (a ++ ' ' :: b) := by
  constructor
  · exact lstripL_append _ ha.1 hane
  · have : a ++ ' ' :: b = (a ++ [' ']) ++ b := by simp
    rw [this]
    exact rstripL_append _ hb.2 hbne

theorem lstripL_of_NoWS {l : List Char} (h : NoWS l) : lstripL l = l := by
  cases l with
  | nil => rfl
  | cons c cs => exact lstripL_cons_neg _ (h c (List.mem_cons_self c cs))

theorem rstripL_of_NoWS {l : List Char} (h : NoWS l) : rstripL l = l := by
  induction l with
  | nil => rfl
  | cons c cs ih =>
    have hcs : rstripL cs = cs := ih (fun x hx => h x (List.mem_cons_of_mem c hx))
    rw [rstripL]
    by_cases hn : cs = []
    · subst hn
      simp [h c (List.mem_cons_self c [])]
      rfl
    · simp only [hcs, if_neg hn]

theorem OC_of_NoWS {l : List Char} (h : NoWS l) : OC l :=
  ⟨lstripL_of_NoWS h, rstripL_of_NoWS h⟩

theorem OC_strip (l : List Char) : OC (rstripL (lstripL l)) := by
  constructor
  · exact lstripL_rstripL (lstripL_idem l)
  · exact rstripL_idem (lstripL l)

theorem OC_pstrip (s : String) : OC (pstrip s).data := OC_strip s.data

theorem pstrip_eq_self {s : String} (h : OC s.data) : pstrip s = s := by
  unfold pstrip
  rw [h.1, h.2, strData_eq]

/-! ## Helper lemmas: splitP, words, joins -/

theorem splitP_ne_nil (p : Char → Bool) (l : List Char) : splitP p l ≠ [] := by
  cases l with
  | nil => simp [splitP]
  | cons c cs =>
    rw [splitP]
    by_cases h : p c
    · simp [h]
    · simp only [if_neg h]
      cases splitP p cs with
      | nil => simp
      | cons q rest => simp

theorem splitP_pieces (p : Char → Bool) :
    ∀ l q rest, splitP p l = q :: rest →
      (q <+: l ∧ ∀ x ∈ rest, x <:+: l) := by
  intro l
  induction l with
  | nil =>
    intro q rest h
    rw [splitP] at h
    cases h
    exact ⟨⟨[], rfl⟩, by simp⟩
  | cons c cs ih =>
    intro q rest h
    rw [splitP] at h
    rcases hsplit : splitP p cs with _ | ⟨q0, rest0⟩
    · exact absurd hsplit (splitP_ne_nil p cs)
    · have ⟨hq0, hrest0⟩ := ih q0 rest0 hsplit
      by_cases hc : p c
      · rw [if_pos hc, hsplit] at h
        cases h
        refine ⟨⟨c :: cs, rfl⟩, ?_⟩
        intro x hx
        rcases List.mem_cons.mp hx with hx | hx
        · subst hx; exact subCons c (subOfPref hq0)
        · exact subCons c (hrest0 x hx)
      · rw [if_neg hc, hsplit] at h
        cases h
        refine ⟨?_, ?_⟩
        · obtain ⟨t, ht⟩ := hq0
          exact ⟨t, by simp [ht]⟩
        · intro x hx
          exact subCons c (hrest0 x hx)

theorem splitP_mem_sub (p : Char → Bool) {l q : List Char} (h : q ∈ splitP p l) :
    q <:+: l := by
  rcases hsplit : splitP p l with _ | ⟨q0, rest⟩
  · exact absurd hsplit (splitP_ne_nil p l)
  · have ⟨hq0, hrest⟩ := splitP_pieces p l q0 rest hsplit
    rw [hsplit] at h
    rcases List.mem_cons.mp h with h | h
    · subst h; exact subOfPref hq0
    · exact hrest q h

theorem splitP_mem_no_sep (p : Char → Bool) :
    ∀ l, ∀ q ∈ splitP p l, ∀ c ∈ q, p c = false := by
  intro l
  induction l with
  | nil =>
    intro q hq c hc
    rw [splitP] at hq
    rcases List.mem_singleton.mp hq with h
    subst h
    exact absurd hc (List.not_mem_nil c)
  | cons a cs ih =>
    intro q hq c hc
    rw [splitP] at hq
    by_cases ha : p a
    · rw [if_pos ha] at hq
      rcases List.mem_cons.mp hq with h | h
      · subst h; exact absurd hc (List.not_mem_nil c)
      · exact ih q h c hc
    · rw [if_neg ha] at hq
      rcases hsplit : splitP p cs with _ | ⟨q0, rest0⟩
      · exact absurd hsplit (splitP_ne_nil p cs)
      · rw [hsplit] at hq
        rcases List.mem_cons.mp hq with h | h
        · subst h
          rcases List.mem_cons.mp hc with h | h
          · subst h; simpa using ha
          · exact ih q0 (by rw [hsplit]; exact List.mem_cons_self q0 rest0) c h
        · exact ih q (by rw [hsplit]; exact List.mem_cons_of_mem q0 h) c hc

theorem pwordsL_mem {l w : List Char} (h : w ∈ pwordsL l) :
    NoWS w ∧ w ≠ [] := by
  unfold pwordsL at h
  have hmem := List.mem_filter.mp h
  refine ⟨fun c hc => splitP_mem_no_sep isPySpace l w hmem.1 c hc, by simpa using hmem.2⟩

theorem pywords_mem {s x : String} (h : x ∈ pywords s) :
    NoWS x.data ∧ x.data ≠ [] := by
  unfold pywords at h
  obtain ⟨w, hw, hx⟩ := List.mem_map.mp h
  have := pwordsL_mem hw
  subst hx
  exact this

theorem joinSep_words_props (ws : List String) (hne : ws ≠ [])
    (h : ∀ w ∈ ws, NoWS w.data ∧ w.data ≠ []) :
    OC (joinSep " " ws).data ∧ (joinSep " " ws).data ≠ [] := by
  induction ws with
  | nil => exact absurd rfl hne
  | cons s rest ih =>
    cases rest with
    | nil =>
      have hs := h s (List.mem_cons_self s [])
      exact ⟨OC_of_NoWS hs.1, hs.2⟩
    | cons t ts =>
      have hs := h s (List.mem_cons_self s (t :: ts))
      have hrest := ih (by simp) (fun w hw => h w (List.mem_cons_of_mem s hw))
      have hdata : (joinSep " " (s :: t :: ts)).data =
          s.data ++ ' ' :: (joinSep " " (t :: ts)).data := by
        show (s ++ " " ++ joinSep " " (t :: ts)).data = _
        rw [dataAppend, dataAppend]
        simp [List.append_assoc]
      rw [hdata]
      refine ⟨OC_append (OC_of_NoWS hs.1) hs.2 hrest.1 hrest.2, by simp⟩

theorem dataSpaceAppend (a b : String) : (a ++ " " ++ b).data = a.data ++ ' ' :: b.data := by
  rw [dataAppend, dataAppend]
  simp [List.append_assoc]

theorem dataNeNil_of_ne {s : String} (h : s ≠ "") : s.data ≠ [] :=
  fun hd => h ((strEmpty_iff s).mpr hd)

theorem pySliceLast_subset (k : Nat) (l : List α) : ∀ x ∈ pySliceLast k l, x ∈ l := by
  intro x hx
  unfold pySliceLast at hx
  by_cases hk : k = 0
  · rw [if_pos hk] at hx; exact hx
  · rw [if_neg hk] at hx; exact List.drop_subset _ l hx

theorem pySliceLast_ne_nil {k : Nat} {l : List α} (h : k < l.length) :
    pySliceLast k l ≠ [] := by
  unfold pySliceLast
  by_cases hk : k = 0
  · rw [if_pos hk]
    intro hcon
    rw [hcon] at h
    simp at h
  · rw [if_neg hk]
    intro hcon
    have := congrArg List.length hcon
    rw [List.length_drop] at this
    simp at this
    omega

theorem getOverlap_OC (tp : TextProcessor) (s : String) : OC (getOverlap tp s).data := by
  unfold getOverlap
  by_cases h : s = ""
  · rw [if_pos h]; exact OC_nil
  · rw [if_neg h]
    by_cases hlen : tp.overlap_size < (pywords s).length
    · rw [if_pos hlen]
      refine (joinSep_words_props _ (pySliceLast_ne_nil hlen) ?_).1
      intro w hw
      exact pywords_mem (pySliceLast_subset _ _ w hw)
    · rw [if_neg hlen]; exact OC_nil

theorem getOverlap_pos (tp : TextProcessor) {s : String} (hne : s ≠ "")
    (hlen : tp.overlap_size < (pywords s).length) :
    getOverlap tp s = joinSep " " (pySliceLast tp.overlap_size (pywords s)) ∧
      getOverlap tp s ≠ "" := by
  have heq : getOverlap tp s = joinSep " " (pySliceLast tp.overlap_size (pywords s)) := by
    unfold getOverlap
    rw [if_neg hne, if_pos hlen]
  refine ⟨heq, ?_⟩
  rw [heq]
  intro hcon
  have hprops := joinSep_words_props (pySliceLast tp.overlap_size (pywords s))
    (pySliceLast_ne_nil hlen) (fun w hw => pywords_mem (pySliceLast_subset _ _ w hw))
  exact hprops.2 ((strEmpty_iff _).mp hcon)

theorem getOverlap_neg (tp : TextProcessor) {s : String} (hne : s ≠ "")
    (hlen : ¬tp.overlap_size < (pywords s).length) : getOverlap tp s = "" := by
  unfold getOverlap
  rw [if_neg hne, if_neg hlen]

theorem stepSentence_OC (tp : TextProcessor) (pid : String) (st : ChunkState)
    (s0 : String) (h : OC st.current_chunk.data) :
    OC (stepSentence tp pid st s0).current_chunk.data := by
  by_cases h1 : pstrip s0 = ""
  · simp only [stepSentence, if_pos h1]
    exact h
  · have hOCs : OC (pstrip s0).data := OC_pstrip s0
    have hsne : (pstrip s0).data ≠ [] := dataNeNil_of_ne h1
    simp only [stepSentence, if_neg h1]
    by_cases h2 : tp.target_chunk_size < st.current_word_count + wordCount (pstrip s0) ∧
        st.current_chunk ≠ ""
    · rw [if_pos h2]
      simp only
      by_cases hov : getOverlap tp st.current_chunk ≠ ""
      · rw [if_pos hov]
        rw [dataSpaceAppend]
        exact OC_append (getOverlap_OC tp st.current_chunk) (dataNeNil_of_ne hov) hOCs hsne
      · rw [if_neg hov]
        exact hOCs
    · rw [if_neg h2]
      simp only
      by_cases hcur : st.current_chunk ≠ ""
      · rw [if_pos hcur]
        rw [dataSpaceAppend]
        exact OC_append h (dataNeNil_of_ne hcur) hOCs hsne
      · rw [if_neg hcur]
        exact hOCs

theorem stepSentence_self_cover (tp : TextProcessor) (pid : String) (st : ChunkState)
    (s0 : String) (h1 : pstrip s0 ≠ "") :
    (pstrip s0).data <:+: (stepSentence tp pid st s0).current_chunk.data := by
  simp only [stepSentence, if_neg h1]
  by_cases h2 : tp.target_chunk_size < st.current_word_count + wordCount (pstrip s0) ∧
      st.current_chunk ≠ ""
  · rw [if_pos h2]
    simp only
    by_cases hov : getOverlap tp st.current_chunk ≠ ""
    · rw [if_pos hov, dataSpaceAppend]
      exact ⟨(getOverlap tp st.current_chunk).data ++ [' '], [], by simp⟩
    · rw [if_neg hov]
  · rw [if_neg h2]
    simp only
    by_cases hcur : st.current_chunk ≠ ""
    · rw [if_pos hcur, dataSpaceAppend]
      exact ⟨st.current_chunk.data ++ [' '], [], by simp⟩
    · rw [if_neg hcur]

theorem stepSentence_mono (tp : TextProcessor) (pid : String) (st : ChunkState)
    (s0 : String) {d : List Char} (hOC : OC st.current_chunk.data)
    (h : CoveredBy st d) : CoveredBy (stepSentence tp pid st s0) d := by
  by_cases h1 : pstrip s0 = ""
  · simpa only [stepSentence, if_pos h1] using h
  · simp only [stepSentence, if_neg h1]
    by_cases h2 : tp.target_chunk_size < st.current_word_count + wordCount (pstrip s0) ∧
        st.current_chunk ≠ ""
    · rw [if_pos h2]
      rcases h with ⟨c, hc, hd⟩ | hd
      · exact Or.inl ⟨c, List.mem_append_left _ hc, hd⟩
      · refine Or.inl ⟨mkChunk pid (pstrip st.current_chunk) st.chunk_index
          st.current_word_count, List.mem_append_right _ (List.mem_singleton.mpr rfl), ?_⟩
        show d <:+: (pstrip st.current_chunk).data
        rw [pstrip_eq_self hOC]
        exact hd
    · rw [if_neg h2]
      rcases h with ⟨c, hc, hd⟩ | hd
      · exact Or.inl ⟨c, hc, hd⟩
      · right
        simp only
        by_cases hcur : st.current_chunk ≠ ""
        · rw [if_pos hcur, dataSpaceAppend]
          exact subAppendLeft hd
        · rw [if_neg hcur]
          push_neg at hcur
          obtain ⟨a, b, hab⟩ := hd
          rw [hcur] at hab
          have hd0 : d = [] := by
            have := List.append_eq_nil.mp hab
            exact (List.append_eq_nil.mp this.1).2
          rw [hd0]
          exact ⟨[], (pstrip s0).data, rfl⟩

theorem sentenceSplit_props {t s : String} (h : s ∈ simpleSentenceSplit t) :
    s.data <:+: t.data ∧ OC s.data ∧ s.data ≠ [] := by
  unfold simpleSentenceSplit at h
  obtain ⟨q1, hq1, hs⟩ := List.mem_map.mp h
  have hfil := List.mem_filter.mp hq1
  obtain ⟨q, hq, hq1eq⟩ := List.mem_map.mp hfil.1
  have hne : q1 ≠ [] := by simpa using hfil.2
  have hdata : s.data = q1 := by rw [← hs]
  subst hq1eq
  refine ⟨?_, ?_, ?_⟩
  · rw [hdata]
    refine subTrans (subOfPref (rstripL_pref _)) (subTrans (subOfSuff ?_) (splitP_mem_sub isSentSep hq))
    exact List.dropWhile_suffix isPySpace
  · rw [hdata]
    exact OC_strip q
  · rw [hdata]
    exact hne

theorem chunkFold_OC (tp : TextProcessor) (pid : String) :
    ∀ (sentences : List String) (st : ChunkState), OC st.current_chunk.data →
      OC (List.foldl (stepSentence tp pid) st sentences).current_chunk.data := by
  intro sentences
  induction sentences with
  | nil => intro st h; exact h
  | cons a rest ih =>
    intro st h
    exact ih (stepSentence tp pid st a) (stepSentence_OC tp pid st a h)

theorem chunkFold_mono (tp : TextProcessor) (pid : String) :
    ∀ (sentences : List String) (st : ChunkState) (d : List Char),
      OC st.current_chunk.data → CoveredBy st d →
      CoveredBy (List.foldl (stepSentence tp pid) st sentences) d := by
  intro sentences
  induction sentences with
  | nil => intro st d _ h; exact h
  | cons a rest ih =>
    intro st d hOC h
    exact ih (stepSentence tp pid st a) d (stepSentence_OC tp pid st a hOC)
      (stepSentence_mono tp pid st a hOC h)

theorem chunkFold_cover (tp : TextProcessor) (pid : String) :
    ∀ (sentences : List String) (st : ChunkState), OC st.current_chunk.data →
      ∀ s ∈ sentences, pstrip s ≠ "" →
        CoveredBy (List.foldl (stepSentence tp pid) st sentences) (pstrip s).data := by
  intro sentences
  induction sentences with
  | nil => intro st _ s hs; exact absurd hs (List.not_mem_nil s)
  | cons a rest ih =>
    intro st hOC s hs hne
    rcases List.mem_cons.mp hs with h | h
    · subst h
      refine chunkFold_mono tp pid rest (stepSentence tp pid st s) (pstrip s).data
        (stepSentence_OC tp pid st s hOC) (Or.inr ?_)
      exact stepSentence_self_cover tp pid st s hne
    · exact ih (stepSentence tp pid st a) (stepSentence_OC tp pid st a hOC) s h hne

theorem initState_OC : OC (ChunkState.current_chunk ⟨[], "", 0, 0⟩).data :=
  ⟨rfl, rfl⟩

/-- Claim C1 (amended): for every text long enough to enter the splitting path,
every sentence produced by the splitter appears in some returned chunk,
except possibly the sentences of the final buffer when that buffer has
fewer than 30 tracked words while earlier chunks exist (the source drops
such a buffer at line 112). -/
theorem chunk_text_sentence_coverage (tp : TextProcessor) (text pid : String)
    (htext : text ≠ "") (hlen : tp.min_chunk_size ≤ (pstrip text).length) :
    ∀ s ∈ simpleSentenceSplit (cleanText text),
      (∃ c ∈ chunkText tp text pid, s.data <:+: c.text.data) ∨
      ((chunkLoop tp pid (simpleSentenceSplit (cleanText text))).chunks ≠ [] ∧
       (chunkLoop tp pid (simpleSentenceSplit (cleanText text))).current_word_count < 30 ∧
       s.data <:+: (chunkLoop tp pid (simpleSentenceSplit (cleanText text))).current_chunk.data) := by
  intro s hs
  obtain ⟨hinf, hOCs, hne⟩ := sentenceSplit_props hs
  have hps : pstrip s = s := pstrip_eq_self hOCs
  have hpne : pstrip s ≠ "" := by
    rw [hps]
    intro hc
    exact hne ((strEmpty_iff s).mp hc)
  have hcov : CoveredBy (chunkLoop tp pid (simpleSentenceSplit (cleanText text))) s.data := by
    have := chunkFold_cover tp pid (simpleSentenceSplit (cleanText text)) ⟨[], "", 0, 0⟩
      initState_OC s hs hpne
    rw [hps] at this
    exact this
  have hOCst : OC (chunkLoop tp pid (simpleSentenceSplit (cleanText text))).current_chunk.data :=
    chunkFold_OC tp pid _ _ initState_OC
  have hout : chunkText tp text pid =
      finalizeChunks tp pid (cleanText text)
        (chunkLoop tp pid (simpleSentenceSplit (cleanText text))) := by
    simp only [chunkText, chunkTextWith]
    rw [if_neg]
    push_neg
    exact ⟨htext, hlen⟩
  set st := chunkLoop tp pid (simpleSentenceSplit (cleanText text)) with hst
  by_cases hfin : st.current_chunk ≠ "" ∧ 30 ≤ st.current_word_count
  · have houtval : chunkText tp text pid = st.chunks ++
        [mkChunk pid (pstrip st.current_chunk) st.chunk_index st.current_word_count] := by
      rw [hout]
      unfold finalizeChunks
      rw [if_pos hfin, if_neg (by simp)]
    rcases hcov with ⟨c, hc, hd⟩ | hd
    · have hmem : c ∈ chunkText tp text pid := by
        rw [houtval]
        exact List.mem_append_left _ hc
      exact Or.inl ⟨c, hmem, hd⟩
    · have hmem : mkChunk pid (pstrip st.current_chunk) st.chunk_index
          st.current_word_count ∈ chunkText tp text pid := by
        rw [houtval]
        exact List.mem_append_right _ (List.mem_singleton.mpr rfl)
      refine Or.inl ⟨_, hmem, ?_⟩
      show s.data <:+: (pstrip st.current_chunk).data
      rw [pstrip_eq_self hOCst]
      exact hd
  · have houtval : chunkText tp text pid =
        if st.chunks = [] then
          [mkChunk pid (cleanText text) 0 (wordCount (cleanText text))]
        else st.chunks := by
      rw [hout]
      unfold finalizeChunks
      rw [if_neg hfin]
    by_cases hch : st.chunks = []
    · refine Or.inl ⟨mkChunk pid (cleanText text) 0 (wordCount (cleanText text)), ?_, hinf⟩
      rw [houtval, if_pos hch]
      exact List.mem_singleton.mpr rfl
    · rcases hcov with ⟨c, hc, hd⟩ | hd
      · have hmem : c ∈ chunkText tp text pid := by
          rw [houtval, if_neg hch]
          exact hc
        exact Or.inl ⟨c, hmem, hd⟩
      · refine Or.inr ⟨hch, ?_, hd⟩
        have hcur : st.current_chunk ≠ "" := by
          intro hc
          obtain ⟨a, b, hab⟩ := hd
          rw [hc] at hab
          have : a ++ s.data ++ b = [] := hab
          have h1 := List.append_eq_nil.mp this
          exact hne (List.append_eq_nil.mp h1.1).2
        rcases not_and_or.mp hfin with h | h
        · exact absurd hcur h
        · omega

set_option maxRecDepth 4000

/-- Claim C1 (counterexample): the claim as stated is false.  For the
125-one-letter-word text followed by the sentence `Bye.`, the text enters
the splitting path and `Bye` is a sentence of the text, yet no returned
chunk contains it: closing the first chunk seeds a 26-word buffer
(25 overlap words plus `Bye`), which is below the 30-word final-chunk
minimum and is silently dropped. -/
theorem chunk_text_drops_final_buffer :
    defaultTP.min_chunk_size ≤ (pstrip c1Text).length ∧
    "Bye" ∈ simpleSentenceSplit (cleanText c1Text) ∧
    ∀ c ∈ chunkText defaultTP c1Text "p1", ¬("Bye".data <:+: c.text.data) := by
  decide

/-- Claim C1 (witness for the amended theorem): a 50-character single-word text
enters the splitting path and every sentence of it is covered by the
returned chunks. -/
theorem chunk_text_sentence_coverage_witness :
    (covText ≠ "" ∧ defaultTP.min_chunk_size ≤ (pstrip covText).length) ∧
    (∀ s ∈ simpleSentenceSplit (cleanText covText),
      (∃ c ∈ chunkText defaultTP covText "pw", s.data <:+: c.text.data) ∨
      ((chunkLoop defaultTP "pw" (simpleSentenceSplit (cleanText covText))).chunks ≠ [] ∧
       (chunkLoop defaultTP "pw" (simpleSentenceSplit (cleanText covText))).current_word_count < 30 ∧
       s.data <:+:
        (chunkLoop defaultTP "pw" (simpleSentenceSplit (cleanText covText))).current_chunk.data)) :=
  ⟨⟨by decide, by decide⟩,
   chunk_text_sentence_coverage defaultTP covText "pw" (by decide) (by decide)⟩

/-- Claim C2 (amended): for every input whose *stripped character count* is
below `min_chunk_size` (50 characters, not 50 words), `chunk_text`
returns exactly one chunk: the whole unmodified text, index 0, id
`pid_chunk_0`, and the input's word count. -/
theorem chunk_text_short_input (split : String → List String) (tp : TextProcessor)
    (text pid : String) (h : (pstrip text).length < tp.min_chunk_size) :
    chunkTextWith split tp text pid = [mkChunk pid text 0 (wordCount text)] := by
  unfold chunkTextWith
  rw [if_pos (Or.inr h)]

/-- Claim C2 (witness): a two-character input takes the short path. -/
theorem chunk_text_short_input_witness :
    (pstrip "hi").length < defaultTP.min_chunk_size ∧
    chunkTextWith simpleSentenceSplit defaultTP "hi" "p0" =
      [mkChunk "p0" "hi" 0 (wordCount "hi")] :=
  ⟨by decide, chunk_text_short_input simpleSentenceSplit defaultTP "hi" "p0" (by decide)⟩

/-- Claim C2 (counterexample): the claim as stated is false because the
source's threshold is measured in characters, not words.  A 2-word,
54-character text (two long words separated by a double space) is
shorter than 50 *words*, yet `chunk_text` does not return one chunk equal
to the input: it enters the splitting path and returns the
whitespace-collapsed cleaned text instead. -/
theorem chunk_text_min_size_is_chars :
    (pywords (pstrip c2Text)).length < 50 ∧
    (chunkText defaultTP c2Text "p2").map Chunk.text ≠ [c2Text] := by
  decide

/-- Claim C3 (amended): when adding a sentence would push the tracked word
count over `target_chunk_size` and the buffer is nonempty, the loop body
closes the current chunk (recording its stripped text, tracked word
count and index) and increments the index; the new buffer is seeded with
the last `overlap_size` words of the closed buffer followed by the
triggering sentence *only when the closed buffer has more than
`overlap_size` words* — otherwise the overlap helper returns the empty
string and the new buffer is the triggering sentence alone. -/
theorem step_sentence_split_seed (tp : TextProcessor) (pid : String)
    (st : ChunkState) (s0 : String) (h1 : pstrip s0 ≠ "")
    (h2 : st.current_chunk ≠ "")
    (h3 : tp.target_chunk_size < st.current_word_count + wordCount (pstrip s0)) :
    (stepSentence tp pid st s0).chunks = st.chunks ++
      [mkChunk pid (pstrip st.current_chunk) st.chunk_index st.current_word_count] ∧
    (stepSentence tp pid st s0).chunk_index = st.chunk_index + 1 ∧
    (stepSentence tp pid st s0).current_chunk =
      (if tp.overlap_size < (pywords st.current_chunk).length then
        joinSep " " (pySliceLast tp.overlap_size (pywords st.current_chunk)) ++ " " ++ pstrip s0
      else pstrip s0) := by
  simp only [stepSentence, if_neg h1, if_pos (And.intro h3 h2)]
  refine ⟨trivial, trivial, ?_⟩
  by_cases hlen : tp.overlap_size < (pywords st.current_chunk).length
  · obtain ⟨heq, hne⟩ := getOverlap_pos tp h2 hlen
    rw [if_pos hlen, if_pos hne, heq]
  · rw [if_neg hlen, getOverlap_neg tp h2 hlen]
    simp

/-- Claim C3 (witness): a 3-word buffer (more than `overlap_size = 2` words of
this processor) is closed by a 4-word sentence; the new buffer is the
2-word overlap tail plus the sentence. -/
theorem step_sentence_split_seed_witness :
    (pstrip "d e f g" ≠ "" ∧ (ChunkState.current_chunk ⟨[], "a b c", 3, 0⟩) ≠ "" ∧
      TextProcessor.target_chunk_size ⟨5, 2, 50⟩ <
        (ChunkState.current_word_count ⟨[], "a b c", 3, 0⟩) + wordCount (pstrip "d e f g")) ∧
    ((stepSentence ⟨5, 2, 50⟩ "pw3" ⟨[], "a b c", 3, 0⟩ "d e f g").chunks =
      [] ++ [mkChunk "pw3" (pstrip "a b c") 0 3] ∧
     (stepSentence ⟨5, 2, 50⟩ "pw3" ⟨[], "a b c", 3, 0⟩ "d e f g").chunk_index = 0 + 1 ∧
     (stepSentence ⟨5, 2, 50⟩ "pw3" ⟨[], "a b c", 3, 0⟩ "d e f g").current_chunk =
      (if TextProcessor.overlap_size ⟨5, 2, 50⟩ < (pywords "a b c").length then
        joinSep " " (pySliceLast 2 (pywords "a b c")) ++ " " ++ pstrip "d e f g"
      else pstrip "d e f g")) :=
  ⟨⟨by decide, by decide, by decide⟩,
   step_sentence_split_seed ⟨5, 2, 50⟩ "pw3" ⟨[], "a b c", 3, 0⟩ "d e f g"
     (by decide) (by decide) (by decide)⟩

/-- Claim C3 (counterexample): the claim's "regardless of how many words the
closed chunk contains" is false.  Chunking a 10-word sentence followed by
a 120-word sentence closes a 10-word first chunk; since 10 ≤ 25 the
overlap helper returns the empty string, and the second chunk's text is
the 120-word sentence alone — not the claimed last-25-words overlap tail
followed by the sentence. -/
theorem chunk_text_no_overlap_small_chunk :
    defaultTP.min_chunk_size ≤ (pstrip c3Text).length ∧
    (chunkText defaultTP c3Text "p3").map Chunk.text = [c3s1, c3s2] ∧
    c3s2 ≠ joinSep " " (pySliceLast defaultTP.overlap_size (pywords c3s1)) ++ " " ++ c3s2 := by
  decide

/-- Claim C9: `chunk_text` is total (the embedding is a total function, with
the sentence splitter fully abstract) and returns at least one chunk on
every input, including empty and degenerate ones: the short-input branch,
the final-buffer branch and the no-valid-chunks fallback each produce a
nonempty list. -/
theorem chunk_text_total_nonempty (split : String → List String)
    (tp : TextProcessor) (text pid : String) :
    1 ≤ (chunkTextWith split tp text pid).length := by
  unfold chunkTextWith
  by_cases h : text = "" ∨ (pstrip text).length < tp.min_chunk_size
  · rw [if_pos h]
    simp
  · rw [if_neg h]
    unfold finalizeChunks
    by_cases hch : (if (chunkLoop tp pid (split (cleanText text))).current_chunk ≠ "" ∧
        30 ≤ (chunkLoop tp pid (split (cleanText text))).current_word_count then
          (chunkLoop tp pid (split (cleanText text))).chunks ++
            [mkChunk pid (pstrip (chunkLoop tp pid (split (cleanText text))).current_chunk)
              (chunkLoop tp pid (split (cleanText text))).chunk_index
              (chunkLoop tp pid (split (cleanText text))).current_word_count]
        else (chunkLoop tp pid (split (cleanText text))).chunks) = []
    · rw [if_pos hch]
      simp
    · rw [if_neg hch]
      exact List.length_pos.mpr hch

/-- Claim C7 (code bug evaluation): assembling the spec §8 example record
yields the fixed clause order with `|` rendered as ` > ` and the price
clause present, but the currency prefix is the mojibake `â‚¹` that the
encoding-corrupted source file literally contains, so the claimed
`₹`-prefixed text is *not* a prefix of the output. -/
theorem concatenate_product_text_mojibake :
    concatenateProductText wirelessRow =
      "Product: Wireless Mouse. Brand: acme. Category: electronics > computers. " ++
        "Price: â‚¹19.99. Description: " ++ String.mk (List.replicate 40 'A') ∧
    ¬(("Product: Wireless Mouse. Brand: acme. Category: electronics > computers. " ++
        "Price: ₹19.99").data <+: (concatenateProductText wirelessRow).data) := by
  decide

theorem snoc_index_inv (pid text : String) (chunks : List Chunk) (idx wc : Nat)
    (h1 : chunks.map Chunk.chunk_index = List.range idx)
    (h2 : chunks.length = idx)
    (h3 : ∀ c ∈ chunks, c.chunk_id = pid ++ "_chunk_" ++ toString c.chunk_index ∧
      c.product_id = pid) :
    (chunks ++ [mkChunk pid text idx wc]).map Chunk.chunk_index = List.range (idx + 1) ∧
    (chunks ++ [mkChunk pid text idx wc]).length = idx + 1 ∧
    ∀ c ∈ chunks ++ [mkChunk pid text idx wc],
      c.chunk_id = pid ++ "_chunk_" ++ toString c.chunk_index ∧ c.product_id = pid := by
  refine ⟨?_, ?_, ?_⟩
  · rw [List.map_append, h1, List.range_succ]
    rfl
  · rw [List.length_append, h2]
    rfl
  · intro c hc
    rcases List.mem_append.mp hc with h | h
    · exact h3 c h
    · rw [List.mem_singleton.mp h]
      exact ⟨rfl, rfl⟩

theorem stepSentence_index_inv (tp : TextProcessor) (pid : String) (st : ChunkState)
    (s0 : String) (h : IndexInv pid st) : IndexInv pid (stepSentence tp pid st s0) := by
  obtain ⟨h1, h2, h3⟩ := h
  by_cases hs : pstrip s0 = ""
  · simp only [stepSentence, if_pos hs]
    exact ⟨h1, h2, h3⟩
  · simp only [stepSentence, if_neg hs]
    by_cases hcond : tp.target_chunk_size < st.current_word_count + wordCount (pstrip s0) ∧
        st.current_chunk ≠ ""
    · rw [if_pos hcond]
      exact snoc_index_inv pid (pstrip st.current_chunk) st.chunks st.chunk_index
        st.current_word_count h1 h2 h3
    · rw [if_neg hcond]
      exact ⟨h1, h2, h3⟩

theorem chunkFold_index_inv (tp : TextProcessor) (pid : String) :
    ∀ (sentences : List String) (st : ChunkState), IndexInv pid st →
      IndexInv pid (List.foldl (stepSentence tp pid) st sentences) := by
  intro sentences
  induction sentences with
  | nil => intro st h; exact h
  | cons a rest ih =>
    intro st h
    exact ih (stepSentence tp pid st a) (stepSentence_index_inv tp pid st a h)

/-- Claim C8: for every sentence splitter, configuration, input text and
product id, the chunk indices returned by `chunk_text` are exactly
`0, 1, 2, ...` with no gaps and no repeats, and every chunk's id is the
f-string `pid ++ "_chunk_" ++ index` with the chunk's own product id.
(The result depends only on the text and the product id, so indices are
independent across sources.) -/
theorem chunk_text_indices_contiguous (split : String → List String)
    (tp : TextProcessor) (text pid : String) :
    (chunkTextWith split tp text pid).map Chunk.chunk_index =
      List.range (chunkTextWith split tp text pid).length ∧
    ∀ c ∈ chunkTextWith split tp text pid,
      c.chunk_id = pid ++ "_chunk_" ++ toString c.chunk_index ∧ c.product_id = pid := by
  have hinit : IndexInv pid ⟨[], "", 0, 0⟩ := ⟨rfl, rfl, by simp⟩
  have hloop : IndexInv pid (chunkLoop tp pid (split (cleanText text))) :=
    chunkFold_index_inv tp pid (split (cleanText text)) ⟨[], "", 0, 0⟩ hinit
  obtain ⟨h1, h2, h3⟩ := hloop
  unfold chunkTextWith
  by_cases h : text = "" ∨ (pstrip text).length < tp.min_chunk_size
  · rw [if_pos h]
    refine ⟨by rfl, ?_⟩
    intro c hc
    rw [List.mem_singleton.mp hc]
    exact ⟨rfl, rfl⟩
  · rw [if_neg h]
    by_cases hfin : (chunkLoop tp pid (split (cleanText text))).current_chunk ≠ "" ∧
        30 ≤ (chunkLoop tp pid (split (cleanText text))).current_word_count
    · have hval : finalizeChunks tp pid (cleanText text)
          (chunkLoop tp pid (split (cleanText text))) =
          (chunkLoop tp pid (split (cleanText text))).chunks ++
            [mkChunk pid (pstrip (chunkLoop tp pid (split (cleanText text))).current_chunk)
              (chunkLoop tp pid (split (cleanText text))).chunk_index
              (chunkLoop tp pid (split (cleanText text))).current_word_count] := by
        unfold finalizeChunks
        rw [if_pos hfin, if_neg (by simp)]
      rw [hval]
      have hsnoc := snoc_index_inv pid
        (pstrip (chunkLoop tp pid (split (cleanText text))).current_chunk)
        (chunkLoop tp pid (split (cleanText text))).chunks
        (chunkLoop tp pid (split (cleanText text))).chunk_index
        (chunkLoop tp pid (split (cleanText text))).current_word_count h1 h2 h3
      exact ⟨by rw [hsnoc.1, hsnoc.2.1], hsnoc.2.2⟩
    · by_cases hch : (chunkLoop tp pid (split (cleanText text))).chunks = []
      · have hval : finalizeChunks tp pid (cleanText text)
            (chunkLoop tp pid (split (cleanText text))) =
            [mkChunk pid (cleanText text) 0 (wordCount (cleanText text))] := by
          unfold finalizeChunks
          rw [if_neg hfin, if_pos hch]
        rw [hval]
        refine ⟨by rfl, ?_⟩
        intro c hc
        rw [List.mem_singleton.mp hc]
        exact ⟨rfl, rfl⟩
      · have hval : finalizeChunks tp pid (cleanText text)
            (chunkLoop tp pid (split (cleanText text))) =
            (chunkLoop tp pid (split (cleanText text))).chunks := by
          unfold finalizeChunks
          rw [if_neg hfin, if_neg hch]
        rw [hval]
        exact ⟨by rw [h1, h2], h3⟩

theorem batchSlicesGo_flatten (f : String → α) (bs : Nat) (hbs : 0 < bs) :
    ∀ (fuel : Nat) (l : List String), l.length ≤ fuel →
      ((batchSlicesGo bs fuel l).map (fun b => encodeBatch f b)).flatten = l.map f := by
  intro fuel
  induction fuel with
  | zero =>
    intro l hl
    have : l = [] := List.length_eq_zero.mp (Nat.le_zero.mp hl)
    subst this
    rfl
  | succ n ih =>
    intro l hl
    cases l with
    | nil => rfl
    | cons x xs =>
      show ((((x :: xs).take bs :: batchSlicesGo bs n ((x :: xs).drop bs)).map
        (fun b => encodeBatch f b)).flatten) = _
      rw [List.map_cons, List.flatten_cons]
      have hdrop : ((x :: xs).drop bs).length ≤ n := by
        rw [List.length_drop]
        simp only [List.length_cons] at hl ⊢
        omega
      rw [ih ((x :: xs).drop bs) hdrop]
      show List.map f ((x :: xs).take bs) ++ List.map f ((x :: xs).drop bs) = _
      rw [← List.map_append, List.take_append_drop]

/-- Claim C4: `generate_embeddings` returns exactly one vector per input text —
the provider's embedding of that text, in order — and the result is the
same for every positive `batch_size`: it always equals the elementwise
(unbatched) embedding of the inputs. -/
theorem generate_embeddings_eq_map (f : String → α) (texts : List String)
    (batch_size : Nat) (h : 0 < batch_size) :
    generateEmbeddings f texts batch_size = texts.map f := by
  unfold generateEmbeddings batchSlices
  rw [if_neg (Nat.pos_iff_ne_zero.mp h)]
  exact batchSlicesGo_flatten f batch_size h texts.length texts le_rfl

/-- Claim C4 (witness): three texts, batch size 2. -/
theorem generate_embeddings_eq_map_witness :
    0 < 2 ∧ generateEmbeddings (fun s => s) ["x", "y", "z"] 2 =
      List.map (fun s => s) ["x", "y", "z"] :=
  ⟨by decide, generate_embeddings_eq_map (fun s => s) ["x", "y", "z"] 2 (by decide)⟩

/-- Claim C10: `create_collection` never propagates an error from its reset
phase.  Whenever the lookup-and-delete `try` block raises (missing
collection, or an injected delete fault), the bare `except` swallows the
error, the store is left untouched, and the function proceeds to the
`client.create_collection` call on the unchanged store — exactly the call
it performs when no collection pre-existed. -/
theorem create_collection_swallows_reset_errors {α : Type} (fault : Bool)
    (s : Store α) (name : String) :
    (∀ e, resetPhase fault s name = Except.error e →
      createCollectionWith fault s name = clientCreateCollection s name) ∧
    (storeLookup name s = none →
      createCollectionWith fault s name = clientCreateCollection s name) := by
  constructor
  · intro e he
    simp only [createCollectionWith, he]
  · intro hnone
    simp only [createCollectionWith, resetPhase, clientGetCollection, hnone]

/-- C10 (witness): deleting the pre-existing `products` collection fails
with an injected fault; `create_collection` still proceeds to the create
call on the unchanged store. -/
theorem create_collection_swallows_reset_errors_witness :
    resetPhase true oldStore "products" = Except.error StoreErr.deleteFailed ∧
    createCollectionWith true oldStore "products" =
      clientCreateCollection oldStore "products" :=
  ⟨rfl,
   (create_collection_swallows_reset_errors true oldStore "products").1
     StoreErr.deleteFailed rfl⟩

theorem storeLookup_delete (name : String) (s : Store α) :
    storeLookup name (storeDelete name s) = none := by
  induction s with
  | nil => rfl
  | cons p rest ih =>
    obtain ⟨n, es⟩ := p
    show storeLookup name (storeDelete name ((n, es) :: rest)) = none
    rw [storeDelete]
    by_cases h : n = name
    · rw [if_pos h]
      exact ih
    · rw [if_neg h]
      rw [storeLookup, if_neg h]
      exact ih

theorem storeLookup_append (name : String) (s1 s2 : Store α) :
    storeLookup name (s1 ++ s2) =
      match storeLookup name s1 with
      | some es => some es
      | none => storeLookup name s2 := by
  induction s1 with
  | nil => rfl
  | cons p rest ih =>
    obtain ⟨n, es⟩ := p
    show storeLookup name ((n, es) :: (rest ++ s2)) = _
    rw [storeLookup]
    by_cases h : n = name
    · rw [if_pos h]
      rw [show storeLookup name ((n, es) :: rest) = some es from by rw [storeLookup, if_pos h]]
    · rw [if_neg h]
      rw [show storeLookup name ((n, es) :: rest) = storeLookup name rest from by
        rw [storeLookup, if_neg h]]
      exact ih

theorem createCollectionWith_false_ok (s : Store α) (name : String) :
    ∃ s0 : Store α, createCollectionWith false s name = Except.ok (s0 ++ [(name, [])]) ∧
      storeLookup name s0 = none := by
  rcases h : storeLookup name s with _ | es
  · refine ⟨s, ?_, h⟩
    simp only [createCollectionWith, resetPhase, clientGetCollection, h,
      clientCreateCollection]
  · refine ⟨storeDelete name s, ?_, storeLookup_delete name s⟩
    simp only [createCollectionWith, resetPhase, clientGetCollection, h,
      clientDeleteCollection, Bool.false_eq_true, if_false, clientCreateCollection,
      storeLookup_delete name s]

theorem storeAdd_lookup (name : String) (es : List (Entry α)) :
    ∀ (s : Store α) (cur : List (Entry α)), storeLookup name s = some cur →
      storeLookup name (storeAdd name es s) = some (cur ++ es) := by
  intro s
  induction s with
  | nil => intro cur h; cases h
  | cons p rest ih =>
    obtain ⟨n, l⟩ := p
    intro cur h
    rw [storeLookup] at h
    rw [storeAdd]
    by_cases hn : n = name
    · rw [if_pos hn] at h ⊢
      rw [storeLookup, if_pos hn]
      rw [Option.some.injEq] at h
      rw [h]
    · rw [if_neg hn] at h ⊢
      rw [storeLookup, if_neg hn]
      exact ih cur h

theorem applyBatches_lookup (name : String) :
    ∀ (bs : List (BatchAdd α)) (s : Store α) (cur : List (Entry α)),
      storeLookup name s = some cur →
      storeLookup name (applyBatches name bs s) =
        some (cur ++ (bs.map batchEntries).flatten) := by
  intro bs
  induction bs with
  | nil =>
    intro s cur h
    simpa [applyBatches] using h
  | cons b rest ih =>
    intro s cur h
    show storeLookup name (applyBatches name rest (storeAdd name (batchEntries b) s)) = _
    rw [ih (storeAdd name (batchEntries b) s) (cur ++ batchEntries b)
      (storeAdd_lookup name (batchEntries b) s cur h)]
    simp [List.append_assoc]

theorem entriesOf_take_drop (n : Nat) :
    ∀ (is : List String) (vs : List α) (ds : List String) (ms : List Metadata),
      is.length = vs.length → is.length = ds.length → is.length = ms.length →
      entriesOf is vs ds ms =
        entriesOf (is.take n) (vs.take n) (ds.take n) (ms.take n) ++
          entriesOf (is.drop n) (vs.drop n) (ds.drop n) (ms.drop n) := by
  induction n with
  | zero => intro is vs ds ms _ _ _; simp [entriesOf]
  | succ n ih =>
    intro is vs ds ms hv hd hm
    cases is with
    | nil =>
      have : vs = [] := List.length_eq_zero.mp (by simpa using hv.symm)
      subst this
      have : ds = [] := List.length_eq_zero.mp (by simpa using hd.symm)
      subst this
      have : ms = [] := List.length_eq_zero.mp (by simpa using hm.symm)
      subst this
      simp [entriesOf]
    | cons i is2 =>
      cases vs with
      | nil => simp at hv
      | cons v vs2 =>
        cases ds with
        | nil => simp at hd
        | cons d ds2 =>
          cases ms with
          | nil => simp at hm
          | cons m ms2 =>
            simp only [List.length_cons] at hv hd hm
            show Entry.mk i v d m :: entriesOf is2 vs2 ds2 ms2 = _
            rw [ih is2 vs2 ds2 ms2 (by omega) (by omega) (by omega)]
            simp [List.take_succ_cons, List.drop_succ_cons, entriesOf]

theorem storeBatchesGo_entries :
    ∀ (fuel : Nat) (is : List String) (vs : List α) (ds : List String)
      (ms : List Metadata), is.length ≤ fuel → is.length = vs.length →
      is.length = ds.length → is.length = ms.length →
      ((storeBatchesGo fuel is vs ds ms).map batchEntries).flatten =
        entriesOf is vs ds ms := by
  intro fuel
  induction fuel with
  | zero =>
    intro is vs ds ms hf hv hd hm
    have : is = [] := List.length_eq_zero.mp (Nat.le_zero.mp hf)
    subst this
    have : vs = [] := List.length_eq_zero.mp (by simpa using hv.symm)
    subst this
    rfl
  | succ n ih =>
    intro is vs ds ms hf hv hd hm
    cases is with
    | nil =>
      have : vs = [] := List.length_eq_zero.mp (by simpa using hv.symm)
      subst this
      rfl
    | cons i is2 =>
      show ((BatchAdd.mk ((i :: is2).take 100) (vs.take 100) (ds.take 100) (ms.take 100) ::
        storeBatchesGo n ((i :: is2).drop 100) (vs.drop 100) (ds.drop 100)
          (ms.drop 100)).map batchEntries).flatten = _
      rw [List.map_cons, List.flatten_cons]
      rw [ih ((i :: is2).drop 100) (vs.drop 100) (ds.drop 100) (ms.drop 100)
        (by rw [List.length_drop]; simp only [List.length_cons] at hf ⊢; omega)
        (by rw [List.length_drop, List.length_drop]; omega)
        (by rw [List.length_drop, List.length_drop]; omega)
        (by rw [List.length_drop, List.length_drop]; omega)]
      simp only [batchEntries]
      rw [← entriesOf_take_drop 100 (i :: is2) vs ds ms hv hd hm]

/-- Claim C5: `store_embeddings` always resets the named collection before
writing: whatever the prior store state (including one produced by an
earlier ingestion run of the same name), the run succeeds and afterwards
the collection holds exactly the entries zipped from the new chunk table
and embedding array — no entry of any previous run survives. -/
theorem store_embeddings_reset_contents {α : Type} (s : Store α)
    (chunks : List ChunkRow) (embs : List α) (name : String)
    (h : chunks.length = embs.length) :
    ∃ s1, storeEmbeddings s chunks embs name = Except.ok s1 ∧
      storeLookup name s1 = some (entriesOf (chunks.map (fun r => r.chunk_id)) embs
        (chunks.map (fun r => r.text)) (chunks.map mkMetadata)) := by
  obtain ⟨s0, hs0, hnone⟩ := createCollectionWith_false_ok s name
  refine ⟨applyBatches name (storeBatches chunks embs) (s0 ++ [(name, [])]), ?_, ?_⟩
  · unfold storeEmbeddings
    rw [hs0]
  · have hbase : storeLookup name (s0 ++ [(name, [])]) = some [] := by
      rw [storeLookup_append, hnone]
      rw [storeLookup, if_pos rfl]
    rw [applyBatches_lookup name (storeBatches chunks embs) _ [] hbase]
    rw [List.nil_append]
    congr 1
    simp only [storeBatches]
    exact storeBatchesGo_entries (chunks.map (fun r => r.chunk_id)).length
      (chunks.map (fun r => r.chunk_id)) embs (chunks.map (fun r => r.text))
      (chunks.map mkMetadata) le_rfl (by simpa using h) (by simp) (by simp)

/-- Claim C5 (witness): re-running ingestion over a store already holding a
stale entry in `products` leaves exactly the two new entries. -/
theorem store_embeddings_reset_contents_witness :
    [row1, row2].length = [(1 : Nat), 2].length ∧
    ∃ s1, storeEmbeddings oldStore [row1, row2] [(1 : Nat), 2] "products" = Except.ok s1 ∧
      storeLookup "products" s1 = some (entriesOf ([row1, row2].map (fun r => r.chunk_id))
        [(1 : Nat), 2] ([row1, row2].map (fun r => r.text)) ([row1, row2].map mkMetadata)) :=
  ⟨rfl, store_embeddings_reset_contents oldStore [row1, row2] [(1 : Nat), 2] "products" rfl⟩

theorem storeBatchesGo_aligned :
    ∀ (fuel : Nat) (is : List String) (vs : List α) (ds : List String)
      (ms : List Metadata), is.length ≤ fuel → is.length = vs.length →
      is.length = ds.length → is.length = ms.length →
      (∀ b ∈ storeBatchesGo fuel is vs ds ms,
        b.ids.length = b.embeddings.length ∧ b.ids.length = b.documents.length ∧
        b.ids.length = b.metadatas.length ∧ b.ids.length ≤ 100) ∧
      ((storeBatchesGo fuel is vs ds ms).map (fun b => b.ids)).flatten = is ∧
      ((storeBatchesGo fuel is vs ds ms).map (fun b => b.embeddings)).flatten = vs ∧
      ((storeBatchesGo fuel is vs ds ms).map (fun b => b.documents)).flatten = ds ∧
      ((storeBatchesGo fuel is vs ds ms).map (fun b => b.metadatas)).flatten = ms := by
  intro fuel
  induction fuel with
  | zero =>
    intro is vs ds ms hf hv hd hm
    have : is = [] := List.length_eq_zero.mp (Nat.le_zero.mp hf)
    subst this
    have : vs = [] := List.length_eq_zero.mp (by simpa using hv.symm)
    subst this
    have : ds = [] := List.length_eq_zero.mp (by simpa using hd.symm)
    subst this
    have : ms = [] := List.length_eq_zero.mp (by simpa using hm.symm)
    subst this
    exact ⟨by simp [storeBatchesGo], rfl, rfl, rfl, rfl⟩
  | succ n ih =>
    intro is vs ds ms hf hv hd hm
    cases is with
    | nil =>
      have : vs = [] := List.length_eq_zero.mp (by simpa using hv.symm)
      subst this
      have : ds = [] := List.length_eq_zero.mp (by simpa using hd.symm)
      subst this
      have : ms = [] := List.length_eq_zero.mp (by simpa using hm.symm)
      subst this
      exact ⟨by simp [storeBatchesGo], rfl, rfl, rfl, rfl⟩
    | cons i is2 =>
      have hgo : storeBatchesGo (n + 1) (i :: is2) vs ds ms =
          BatchAdd.mk ((i :: is2).take 100) (vs.take 100) (ds.take 100) (ms.take 100) ::
            storeBatchesGo n ((i :: is2).drop 100) (vs.drop 100) (ds.drop 100)
              (ms.drop 100) := rfl
      have hrec := ih ((i :: is2).drop 100) (vs.drop 100) (ds.drop 100) (ms.drop 100)
        (by rw [List.length_drop]; simp only [List.length_cons] at hf ⊢; omega)
        (by rw [List.length_drop, List.length_drop]; omega)
        (by rw [List.length_drop, List.length_drop]; omega)
        (by rw [List.length_drop, List.length_drop]; omega)
      refine ⟨?_, ?_, ?_, ?_, ?_⟩
      · intro b hb
        rw [hgo] at hb
        rcases List.mem_cons.mp hb with hb | hb
        · subst hb
          refine ⟨?_, ?_, ?_, ?_⟩
          · simp only [List.length_take]
            omega
          · simp only [List.length_take]
            omega
          · simp only [List.length_take]
            omega
          · simp only [List.length_take]
            omega
        · exact hrec.1 b hb
      · rw [hgo, List.map_cons, List.flatten_cons]
        rw [hrec.2.1]
        exact List.take_append_drop 100 (i :: is2)
      · rw [hgo, List.map_cons, List.flatten_cons]
        rw [hrec.2.2.1]
        exact List.take_append_drop 100 vs
      · rw [hgo, List.map_cons, List.flatten_cons]
        rw [hrec.2.2.2.1]
        exact List.take_append_drop 100 ds
      · rw [hgo, List.map_cons, List.flatten_cons]
        rw [hrec.2.2.2.2]
        exact List.take_append_drop 100 ms

/-- Claim C6: when the chunk table and the embeddings array have the same
length, every `collection.add` batch issued by `store_embeddings` carries
ids, embeddings, documents and metadatas arrays of equal length, each of
at most 100 elements; and the batches are consecutive slices covering all
chunks in order — concatenating the batches' arrays recovers the full
`chunk_id` column, the embedding array, the `text` column and the
stringified metadata column, so position `j` of each array within a batch
belongs to the same chunk. -/
theorem store_batches_aligned {α : Type} (chunks : List ChunkRow) (embs : List α)
    (h : chunks.length = embs.length) :
    (∀ b ∈ storeBatches chunks embs,
      b.ids.length = b.embeddings.length ∧ b.ids.length = b.documents.length ∧
      b.ids.length = b.metadatas.length ∧ b.ids.length ≤ 100) ∧
    ((storeBatches chunks embs).map (fun b => b.ids)).flatten =
      chunks.map (fun r => r.chunk_id) ∧
    ((storeBatches chunks embs).map (fun b => b.embeddings)).flatten = embs ∧
    ((storeBatches chunks embs).map (fun b => b.documents)).flatten =
      chunks.map (fun r => r.text) ∧
    ((storeBatches chunks embs).map (fun b => b.metadatas)).flatten =
      chunks.map mkMetadata := by
  simp only [storeBatches]
  exact storeBatchesGo_aligned (chunks.map (fun r => r.chunk_id)).length
    (chunks.map (fun r => r.chunk_id)) embs (chunks.map (fun r => r.text))
    (chunks.map mkMetadata) le_rfl (by simpa using h) (by simp) (by simp)

/-- Claim C6 (witness): two chunk rows with two embeddings produce one aligned
batch of two. -/
theorem store_batches_aligned_witness :
    [row1, row2].length = [(3 : Nat), 4].length ∧
    ((∀ b ∈ storeBatches [row1, row2] [(3 : Nat), 4],
      b.ids.length = b.embeddings.length ∧ b.ids.length = b.documents.length ∧
      b.ids.length = b.metadatas.length ∧ b.ids.length ≤ 100) ∧
    ((storeBatches [row1, row2] [(3 : Nat), 4]).map (fun b => b.ids)).flatten =
      [row1, row2].map (fun r => r.chunk_id) ∧
    ((storeBatches [row1, row2] [(3 : Nat), 4]).map (fun b => b.embeddings)).flatten =
      [(3 : Nat), 4] ∧
    ((storeBatches [row1, row2] [(3 : Nat), 4]).map (fun b => b.documents)).flatten =
      [row1, row2].map (fun r => r.text) ∧
    ((storeBatches [row1, row2] [(3 : Nat), 4]).map (fun b => b.metadatas)).flatten =
      [row1, row2].map mkMetadata) :=
  ⟨rfl, store_batches_aligned [row1, row2] [(3 : Nat), 4] rfl⟩
